import Mathlib

/-!
Shallow embedding of `src/prime_numbers.cpp`, a multithreaded prime
enumerator with per-worker temp files and a delayed merge.

Each definition below mirrors one function or code block of the source:
* `isPrime`            — `isPrime` (lines 28-37), trial division by odd
  divisors, written with explicit fuel so that it is structurally
  recursive (the fuel `n.toNat` dominates the number of loop steps).
* `Range`, `planRanges`, `blockSize`, `ceil_div` — the partition code in
  `main` (lines 126-140).
* `workerPrimes`       — the compute loop of `workerTask` (lines 58-65).
* `serializeChars`     — the file-writing loop of `workerTask`
  (lines 68-73): space-separated decimal integers plus a newline.
* `parseInts`          — the merge loop's `while (ifs >> v)` reads
  (lines 182-185): skip whitespace, read an optionally signed decimal
  integer, stop at the first token that is not one.
* `mergeAccum`         — the merge loop with per-worker fallback
  (lines 176-192).
* `finalize`           — `std::sort` + `std::unique`/`erase`
  (lines 194-195).
* `computeNumThreads`  — the thread-count policy (lines 114-119).
* `parseLimit`         — the strict CLI parse (lines 87-97); the
  `istringstream` extraction rejects values that overflow `long long`.
* `mainRun`            — `main`'s control flow from parse to merged list.
-/

/-- Set of whitespace characters skipped by `operator>>` on a text stream. -/
def isWS (c : Char) : Bool :=
  c = ' ' || c = '\n' || c = '\t' || c = '\r'

/-- `std::isdigit` on the characters that matter here. -/
def isDigitCh (c : Char) : Bool :=
  48 ≤ c.toNat && c.toNat ≤ 57

/-- Numeric value of a decimal digit character. -/
def digitVal (c : Char) : Nat := c.toNat - 48

/-- Decimal digit to character, as produced by `operator<<`. -/
def digitChar : Nat → Char
  | 0 => '0' | 1 => '1' | 2 => '2' | 3 => '3' | 4 => '4'
  | 5 => '5' | 6 => '6' | 7 => '7' | 8 => '8' | 9 => '9'
  | _ => '?'

/-- The trial-division loop of `isPrime` (lines 33-35):
`for (long long d = 3; d * d <= n; d += 2) if (n % d == 0) return false;`.
The extra fuel argument only bounds the number of iterations; with fuel
at least `n.toNat` it never runs out (see `trialDiv_eq_false_iff`). -/
def trialDiv (n : Int) : Nat → Int → Bool
  | 0, _ => true
  | fuel + 1, d =>
    if d * d ≤ n then
      if n % d = 0 then false else trialDiv n fuel (d + 2)
    else true

/-- `isPrime` (lines 28-37). -/
def isPrime (n : Int) : Bool :=
  if n < 2 then false
  else if n = 2 then true
  else if n % 2 = 0 then false
  else trialDiv n n.toNat 3

/-- `struct Range` (lines 39-42), inclusive bounds; `stop` is the field
named `end` in the source. -/
structure Range where
  start : Int
  stop : Int
deriving DecidableEq, Repr

/-- The `ceil_div` lambda in `main` (lines 126-128). -/
def ceil_div (a b : Int) : Int := (a + b - 1) / b

/-- Line 129: `block = (numThreads > 0) ? ceil_div(limit, numThreads) : limit`. -/
def blockSize (limit : Int) (numThreads : Nat) : Int :=
  if 0 < numThreads then ceil_div limit (numThreads : Int) else limit

/-- The body of the partition loop (lines 134-139): compute the block's
bounds and replace an inverted pair by the explicit empty range. -/
def planRangeAt (limit block : Int) (i : Nat) : Range :=
  let s : Int := (i : Int) * block + 1
  let e : Int := min limit (((i : Int) + 1) * block)
  if e < s then ⟨1, 0⟩ else ⟨s, e⟩

/-- The partition loop of `main` (lines 131-140). -/
def planRanges (limit : Int) (numThreads : Nat) : List Range :=
  (List.range numThreads).map (planRangeAt limit (blockSize limit numThreads))

/-- Ascending enumeration of the integers in `[start, stop]`, the
iteration order of the worker loop (line 61). -/
def rangeList (start stop : Int) : List Int :=
  (List.range (stop + 1 - start).toNat).map (fun (k : Nat) => start + (k : Int))

/-- The compute part of `workerTask` (lines 58-65): scan the range in
ascending order and keep the primes. -/
def workerPrimes (r : Range) : List Int :=
  (rangeList r.start r.stop).filter (fun x => isPrime x)

/-- Lines 114-119 of `main`: hardware-concurrency default, clamp by
`max(1, limit)`, and the `limit < 2` special case. -/
def computeNumThreads (hw0 : Nat) (limit : Int) : Nat :=
  let hw : Nat := if hw0 = 0 then 2 else hw0
  let nt : Int := min (hw : Int) (max 1 limit)
  if limit < 2 then 1 else nt.toNat

/-- Fuel-bounded rendering of a positive natural in decimal, matching
what `operator<<` writes: the accumulator collects digits from least to
most significant, so the output ends up big-endian. -/
def renderNatAux : Nat → Nat → List Char → List Char
  | 0, _, acc => acc
  | fuel + 1, n, acc =>
    if n = 0 then acc else renderNatAux fuel (n / 10) (digitChar (n % 10) :: acc)

/-- Decimal rendering of a natural number (`operator<<` on a nonnegative
`long long`). -/
def renderNat (n : Nat) : List Char :=
  if n = 0 then ['0'] else renderNatAux (n + 1) n []

/-- Decimal rendering of an integer (`operator<<` on `long long`). -/
def renderInt (x : Int) : List Char :=
  if x < 0 then '-' :: renderNat (-x).toNat else renderNat x.toNat

/-- The body written by the worker's output loop (lines 70-72):
values separated by single spaces, no trailing space. -/
def serializeBody : List Int → List Char
  | [] => []
  | [x] => renderInt x
  | x :: y :: t => renderInt x ++ ' ' :: serializeBody (y :: t)

/-- The whole artifact written by `workerTask` (lines 68-73): the body
followed by the final `"\n"`. An empty sequence yields just a newline. -/
def serializeChars (xs : List Int) : List Char :=
  serializeBody xs ++ ['\n']

/-- Maximal run of digits, folded into the value accumulated so far;
this is the digit-consuming phase of `operator>>` into an integer. -/
def readNatAux : List Char → Nat → Nat × List Char
  | [], a => (a, [])
  | c :: cs, a => if isDigitCh c then readNatAux cs (a * 10 + digitVal c) else (a, c :: cs)

/-- The merge loop's `while (ifs >> v)` (lines 182-185): skip
whitespace, then read an optionally signed decimal integer; stop as soon
as that fails.  The fuel argument bounds the number of extracted values
(each extraction consumes at least one character). -/
def readInts : Nat → List Char → List Int
  | 0, _ => []
  | fuel + 1, cs =>
    match cs.dropWhile isWS with
    | [] => []
    | c :: rest =>
      if isDigitCh c then
        let p := readNatAux rest (digitVal c)
        (p.1 : Int) :: readInts fuel p.2
      else if c = '-' then
        match rest with
        | [] => []
        | d :: rest2 =>
          if isDigitCh d then
            let p := readNatAux rest2 (digitVal d)
            (-(p.1 : Int)) :: readInts fuel p.2
          else []
      else if c = '+' then
        match rest with
        | [] => []
        | d :: rest2 =>
          if isDigitCh d then
            let p := readNatAux rest2 (digitVal d)
            ((p.1 : Int)) :: readInts fuel p.2
          else []
      else []

/-- Everything `while (ifs >> v)` extracts from an artifact's content. -/
def parseInts (cs : List Char) : List Int :=
  readInts (cs.length + 1) cs

/-- One artifact per worker: `none` models a file the merge loop cannot
open (so `ifs` is falsy), `some content` a file it reads. -/
def artifactsOf : List (List Int) → (Nat → Bool) → Nat → List (Option (List Char))
  | [], _, _ => []
  | l :: ls, ok, i =>
    (if ok i then some (serializeChars l) else none) :: artifactsOf ls ok (i + 1)

/-- The merge loop of `main` (lines 176-192): per worker index, parse
the artifact when it opens, otherwise splice in the in-memory fallback. -/
def mergeAccum : List (Option (List Char)) → List (List Int) → List Int
  | [], _ => []
  | _ :: _, [] => []
  | some c :: arts, _ :: fbs => parseInts c ++ mergeAccum arts fbs
  | none :: arts, fb :: fbs => fb ++ mergeAccum arts fbs

/-- `std::unique` on the tail, with `x` the last element kept. -/
def dedupRun (x : Int) : List Int → List Int
  | [] => [x]
  | y :: ys => if x = y then dedupRun x ys else x :: dedupRun y ys

/-- `std::unique` + `erase` (line 195): drop consecutive duplicates. -/
def dedupConsec : List Int → List Int
  | [] => []
  | x :: xs => dedupRun x xs

/-- Lines 194-195 of `main`: `std::sort` then `std::unique`/`erase`. -/
def finalize (l : List Int) : List Int :=
  dedupConsec (l.insertionSort (· ≤ ·))

/-- The in-memory per-worker results of a run (`locals` after the join). -/
def workerListsOf (limit : Int) (nt : Nat) : List (List Int) :=
  (planRanges limit nt).map workerPrimes

/-- The final merged output of a run in which worker `i`'s artifact is
readable exactly when `ok i`; a readable artifact holds exactly what the
worker serialized. -/
def finalSequenceRun (limit : Int) (nt : Nat) (ok : Nat → Bool) : List Int :=
  finalize (mergeAccum (artifactsOf (workerListsOf limit nt) ok 0) (workerListsOf limit nt))

/-- Largest value of the working integer type `long long`. -/
def LLONG_MAX : Int := 2 ^ 63 - 1

/-- Numeric value of a digit string, most significant digit first. -/
def charsVal (s : List Char) : Nat :=
  s.foldl (fun a c => a * 10 + digitVal c) 0

/-- `parseLimit` (lines 87-97): reject the empty string and any
non-digit character; the `istringstream` extraction then yields the
numeric value, failing (hence rejecting) exactly when it overflows
`long long`. -/
def parseLimit (s : List Char) : Option Int :=
  if s = [] then none
  else if s.all isDigitCh then
    if (charsVal s : Int) ≤ LLONG_MAX then some (charsVal s) else none
  else none

/-- The per-worker temp file names (lines 148-152). -/
def tempFileNames (nt : Nat) : List String :=
  (List.range nt).map (fun i => "primes_thread_" ++ toString (i + 1) ++ ".txt")

/-- `std::vector<std::vector<long long>> locals(numThreads)` (line 144). -/
def localsInit (nt : Nat) : List (List Int) :=
  List.replicate nt ([] : List Int)

/-- `main`'s control flow: a rejected limit terminates before the core
pipeline; otherwise the pipeline runs and produces the merged list. -/
def mainRun (arg : List Char) (hw0 : Nat) (ok : Nat → Bool) : Option (List Int) :=
  match parseLimit arg with
  | none => none
  | some limit => some (finalSequenceRun limit (computeNumThreads hw0 limit) ok)

/-- Modelled from the spec: "the exact ascending list of primes in
[2, L]" (§8 Correctness), used as the reference value for the pipeline. -/
def specPrimesAscending (L : Int) : List Int :=
  ((List.range (L.toNat + 1)).filter (fun n => decide (Nat.Prime n))).map
    (fun (n : Nat) => (n : Int))

/-! ### Correctness of the trial-division loop -/

lemma trialDiv_eq_false_iff (n : Int) :
    ∀ (fuel : Nat) (d : Int), 0 < d →
      n < (d + 2 * fuel) * (d + 2 * fuel) →
      (trialDiv n fuel d = false ↔
        ∃ k : Nat, (d + 2 * k) * (d + 2 * k) ≤ n ∧ n % (d + 2 * k) = 0) := by
  intro fuel
  induction fuel with
  | zero =>
    intro d hd hlt
    simp only [trialDiv, Nat.cast_zero, mul_zero, add_zero] at *
    constructor
    · intro h; exact absurd h (by simp)
    · rintro ⟨k, hk1, hk2⟩
      exfalso
      have hk0 : (0 : Int) ≤ (k : Int) := Int.natCast_nonneg k
      nlinarith
  | succ fuel ih =>
    intro d hd hlt
    simp only [trialDiv]
    by_cases h1 : d * d ≤ n
    · simp only [h1, if_true]
      by_cases h2 : n % d = 0
      · simp only [h2, if_true]
        constructor
        · intro _
          exact ⟨0, by simpa using h1, by simpa using h2⟩
        · intro _; trivial
      · simp only [h2, if_false]
        have hcast : d + 2 * ((fuel + 1 : Nat) : Int) = (d + 2) + 2 * (fuel : Int) := by
          push_cast; ring
        have hlt' : n < ((d + 2) + 2 * (fuel : Int)) * ((d + 2) + 2 * (fuel : Int)) := by
          rw [← hcast]; exact hlt
        rw [ih (d + 2) (by omega) hlt']
        constructor
        · rintro ⟨k, hk1, hk2⟩
          refine ⟨k + 1, ?_, ?_⟩
          · have e : d + 2 * ((k + 1 : Nat) : Int) = (d + 2) + 2 * (k : Int) := by
              push_cast; ring
            rw [e]; exact hk1
          · have e : d + 2 * ((k + 1 : Nat) : Int) = (d + 2) + 2 * (k : Int) := by
              push_cast; ring
            rw [e]; exact hk2
        · rintro ⟨k, hk1, hk2⟩
          cases k with
          | zero =>
            exfalso
            simp only [Nat.cast_zero, mul_zero, add_zero] at hk2
            exact h2 hk2
          | succ k =>
            refine ⟨k, ?_, ?_⟩
            · have e : d + 2 * ((k + 1 : Nat) : Int) = (d + 2) + 2 * (k : Int) := by
                push_cast; ring
              rw [e] at hk1; exact hk1
            · have e : d + 2 * ((k + 1 : Nat) : Int) = (d + 2) + 2 * (k : Int) := by
                push_cast; ring
              rw [e] at hk2; exact hk2
    · simp only [h1, if_false]
      push_neg at h1
      constructor
      · intro h; exact absurd h (by simp)
      · rintro ⟨k, hk1, hk2⟩
        exfalso
        have hk0 : (0 : Int) ≤ (k : Int) := Int.natCast_nonneg k
        nlinarith

lemma isPrime_eq_trialDiv {n : Int} (h3 : 3 ≤ n) (hodd : n % 2 = 1) :
    isPrime n = trialDiv n n.toNat 3 := by
  have h1 : ¬ n < 2 := by omega
  have h2 : n ≠ 2 := by omega
  have h4 : ¬ n % 2 = 0 := by omega
  simp [isPrime, h1, h2, h4]

/-- For odd `n ≥ 3`, the loop finds exactly the odd divisors `d` with
`3 ≤ d` and `d * d ≤ n`. -/
lemma isPrime_eq_false_iff_oddDvd {n : Int} (h3 : 3 ≤ n) (hodd : n % 2 = 1) :
    (isPrime n = false ↔
      ∃ d : Int, 3 ≤ d ∧ d % 2 = 1 ∧ d * d ≤ n ∧ n % d = 0) := by
  rw [isPrime_eq_trialDiv h3 hodd]
  have hn : ((n.toNat : Nat) : Int) = n := Int.toNat_of_nonneg (by omega)
  have hlt : n < ((3 : Int) + 2 * (n.toNat : Int)) * (3 + 2 * (n.toNat : Int)) := by
    nlinarith [hn, h3]
  rw [trialDiv_eq_false_iff n n.toNat 3 (by omega) hlt]
  constructor
  · rintro ⟨k, hk1, hk2⟩
    refine ⟨3 + 2 * (k : Int), by omega, by omega, hk1, hk2⟩
  · rintro ⟨d, hd3, hdodd, hdsq, hdmod⟩
    refine ⟨((d - 3) / 2).toNat, ?_, ?_⟩
    · have e : (3 : Int) + 2 * (((d - 3) / 2).toNat : Int) = d := by omega
      rw [e]; exact hdsq
    · have e : (3 : Int) + 2 * (((d - 3) / 2).toNat : Int) = d := by omega
      rw [e]; exact hdmod

/-- The central arithmetic fact about `isPrime`: it decides primality of
the (nonnegative) input. -/
lemma isPrime_iff_prime (n : Int) :
    isPrime n = true ↔ 2 ≤ n ∧ Nat.Prime n.toNat := by
  rcases lt_or_le n 2 with h | h
  · simp only [isPrime, if_pos h]
    constructor
    · intro hc; exact absurd hc (by simp)
    · rintro ⟨h2, _⟩; omega
  · rcases eq_or_lt_of_le h with rfl | h2
    · simp [isPrime, Nat.prime_two]
    · have hpar : n % 2 = 0 ∨ n % 2 = 1 := by omega
      rcases hpar with he | ho
      · -- even n > 2: not prime, and isPrime short-circuits to false
        have h1 : ¬ n < 2 := by omega
        have hne : n ≠ 2 := by omega
        simp only [isPrime, if_neg h1, if_neg hne, if_pos he]
        constructor
        · intro hc; exact absurd hc (by simp)
        · rintro ⟨-, hp⟩
          exfalso
          have hdvd : 2 ∣ n.toNat := by omega
          rcases (Nat.Prime.eq_one_or_self_of_dvd hp 2 hdvd) with h' | h' <;> omega
      · -- odd n ≥ 3
        have h3 : 3 ≤ n := by omega
        have hbool : isPrime n = true ↔ ¬ isPrime n = false := by
          cases hi : isPrime n <;> simp
        rw [hbool, isPrime_eq_false_iff_oddDvd h3 ho]
        have hN : ((n.toNat : Nat) : Int) = n := Int.toNat_of_nonneg (by omega)
        constructor
        · intro hno
          refine ⟨by omega, ?_⟩
          by_contra hnp
          have hne1 : n.toNat ≠ 1 := by omega
          have hp := Nat.minFac_prime hne1
          have hdvd := Nat.minFac_dvd n.toNat
          have hsq := Nat.minFac_sq_le_self (by omega : 0 < n.toNat) hnp
          rw [pow_two] at hsq
          set p := n.toNat.minFac with hpdef
          have hp2 : 2 ≤ p := hp.two_le
          have hnodd : n.toNat % 2 = 1 := by omega
          have hpne2 : p ≠ 2 := by
            intro h2p
            obtain ⟨c, hc⟩ := hdvd
            rw [h2p] at hc
            omega
          have hpodd : p % 2 = 1 := by
            rcases Nat.even_or_odd p with he' | ho'
            · exfalso
              obtain ⟨c, hc⟩ := he'
              have h2p : 2 ∣ p := ⟨c, by omega⟩
              rcases hp.eq_one_or_self_of_dvd 2 h2p with h' | h' <;> omega
            · rcases ho' with ⟨c, hc⟩
              omega
          refine hno ⟨(p : Int), by omega, by omega, ?_, ?_⟩
          · have h' : ((p * p : Nat) : Int) ≤ ((n.toNat : Nat) : Int) :=
              Int.ofNat_le.mpr hsq
            rw [hN] at h'
            push_cast at h'
            exact h'
          · apply Int.emod_eq_zero_of_dvd
            obtain ⟨c, hc⟩ := hdvd
            exact ⟨(c : Int), by rw [← hN]; exact_mod_cast hc⟩
        · rintro ⟨-, hp⟩ ⟨d, hd3, hdodd, hdsq, hdmod⟩
          have hddvd : d ∣ n := Int.dvd_of_emod_eq_zero hdmod
          have hdN : d.toNat ∣ n.toNat := by
            have hd : ((d.toNat : Nat) : Int) = d := Int.toNat_of_nonneg (by omega)
            rw [← Int.natCast_dvd_natCast, hd, hN]
            exact hddvd
          rcases hp.eq_one_or_self_of_dvd d.toNat hdN with h' | h'
          · omega
          · have hdn : d = n := by omega
            rw [hdn] at hdsq
            nlinarith

/-! ### The worker's range scan -/

lemma mem_rangeList {start stop x : Int} :
    x ∈ rangeList start stop ↔ start ≤ x ∧ x ≤ stop := by
  simp only [rangeList, List.mem_map, List.mem_range]
  constructor
  · rintro ⟨k, hk, rfl⟩; omega
  · rintro ⟨h1, h2⟩
    exact ⟨(x - start).toNat, by omega, by omega⟩

lemma sorted_rangeList (start stop : Int) : (rangeList start stop).Sorted (· < ·) := by
  unfold rangeList List.Sorted
  rw [List.pairwise_map]
  exact List.Pairwise.imp (fun h => by omega) (List.sorted_lt_range _)

lemma sorted_workerPrimes (r : Range) : (workerPrimes r).Sorted (· < ·) :=
  List.Sorted.filter _ (sorted_rangeList r.start r.stop)

lemma mem_workerPrimes {r : Range} {x : Int} :
    x ∈ workerPrimes r ↔ r.start ≤ x ∧ x ≤ r.stop ∧ isPrime x = true := by
  simp [workerPrimes, List.mem_filter, mem_rangeList, and_assoc]

lemma workerPrimes_of_empty {r : Range} (h : r.stop < r.start) :
    workerPrimes r = [] := by
  have h0 : (r.stop + 1 - r.start).toNat = 0 := by omega
  simp [workerPrimes, rangeList, h0]

/-! ### The partition planner -/

lemma blockSize_nonneg {L : Int} {nt : Nat} (hL : 0 ≤ L) (hnt : 1 ≤ nt) :
    0 ≤ blockSize L nt := by
  have h1 : (0 : Nat) < nt := hnt
  simp only [blockSize, if_pos h1, ceil_div]
  apply Int.ediv_nonneg <;> omega

lemma le_mul_blockSize {L : Int} {nt : Nat} (_hL : 0 ≤ L) (hnt : 1 ≤ nt) :
    L ≤ (nt : Int) * blockSize L nt := by
  have h1 : (0 : Nat) < nt := hnt
  simp only [blockSize, if_pos h1, ceil_div]
  have hne : ((nt : Int)) ≠ 0 := by omega
  have hdm := Int.ediv_add_emod (L + (nt : Int) - 1) (nt : Int)
  have hr0 : 0 ≤ (L + (nt : Int) - 1) % (nt : Int) := Int.emod_nonneg _ hne
  have hrlt : (L + (nt : Int) - 1) % (nt : Int) < (nt : Int) :=
    Int.emod_lt_of_pos _ (by omega)
  linarith

lemma blockSize_pos {L : Int} {nt : Nat} (hL : 1 ≤ L) (hnt : 1 ≤ nt) :
    1 ≤ blockSize L nt := by
  have hm := le_mul_blockSize (by omega : (0:Int) ≤ L) hnt
  by_contra hb
  push_neg at hb
  have hb' : blockSize L nt ≤ 0 := by omega
  have : (nt : Int) * blockSize L nt ≤ 0 :=
    mul_nonpos_of_nonneg_of_nonpos (by omega) hb'
  linarith

lemma planRanges_length (L : Int) (nt : Nat) : (planRanges L nt).length = nt := by
  simp [planRanges]

lemma planRanges_get (L : Int) (nt : Nat) (i : Nat) (h : i < nt) :
    (planRanges L nt).get ⟨i, by simpa [planRanges_length]⟩ =
      planRangeAt L (blockSize L nt) i := by
  simp [planRanges]

lemma mem_planRangeAt {L B x : Int} {i : Nat} :
    ((planRangeAt L B i).start ≤ x ∧ x ≤ (planRangeAt L B i).stop) ↔
      ((i : Int) * B + 1 ≤ x ∧ x ≤ L ∧ x ≤ ((i : Int) + 1) * B) := by
  have hring : ((i : Int) + 1) * B = (i : Int) * B + B := by ring
  simp only [planRangeAt]
  split_ifs with h
  · constructor
    · rintro ⟨h1, h2⟩
      exfalso
      simp only at h1 h2
      omega
    · rintro ⟨h1, h2, h3⟩
      exfalso
      rcases le_total L (((i : Int) + 1) * B) with hm | hm
      · rw [min_eq_left hm] at h; linarith
      · rw [min_eq_right hm] at h; linarith
  · constructor
    · rintro ⟨h1, h2⟩
      simp only at h1 h2
      exact ⟨h1, le_trans h2 (min_le_left _ _), le_trans h2 (min_le_right _ _)⟩
    · rintro ⟨h1, h2, h3⟩
      exact ⟨h1, le_min h2 h3⟩

/-- Coverage: the planned ranges hold exactly the integers of `[1, L]`. -/
lemma planRanges_cover {L : Int} {nt : Nat} (hL : 0 ≤ L) (hnt : 1 ≤ nt) (x : Int) :
    (∃ i : Nat, i < nt ∧
        (planRangeAt L (blockSize L nt) i).start ≤ x ∧
        x ≤ (planRangeAt L (blockSize L nt) i).stop) ↔
      1 ≤ x ∧ x ≤ L := by
  set B := blockSize L nt with hB
  have hB0 : 0 ≤ B := blockSize_nonneg hL hnt
  constructor
  · rintro ⟨i, hi, hx⟩
    rw [mem_planRangeAt] at hx
    obtain ⟨h1, h2, h3⟩ := hx
    have hi0 : (0 : Int) ≤ (i : Int) := Int.natCast_nonneg i
    have : 0 ≤ (i : Int) * B := mul_nonneg hi0 hB0
    constructor <;> linarith
  · rintro ⟨hx1, hxL⟩
    have hL1 : 1 ≤ L := le_trans hx1 hxL
    have hB1 : 1 ≤ B := blockSize_pos hL1 hnt
    set q : Int := (x - 1) / B with hq
    have hdm := Int.ediv_add_emod (x - 1) B
    have hr0 : 0 ≤ (x - 1) % B := Int.emod_nonneg _ (by omega)
    have hrlt : (x - 1) % B < B := Int.emod_lt_of_pos _ (by omega)
    have hq0 : 0 ≤ q := Int.ediv_nonneg (by omega) (by omega)
    refine ⟨q.toNat, ?_, ?_⟩
    · -- q < nt because q*B < x ≤ L ≤ nt*B
      have hmul := le_mul_blockSize hL hnt
      rw [← hB] at hmul
      have hqB : B * q ≤ x - 1 := by linarith
      have hlt : q * B < (nt : Int) * B := by
        have : B * q < (nt : Int) * B := by linarith [mul_comm B q]
        linarith [mul_comm B q]
      have hqnt : q < (nt : Int) := lt_of_mul_lt_mul_right hlt hB0
      omega
    · rw [mem_planRangeAt]
      have hcast : ((q.toNat : Nat) : Int) = q := Int.toNat_of_nonneg hq0
      rw [hcast]
      have hring : (q + 1) * B = q * B + B := by ring
      have hcomm : B * q = q * B := mul_comm B q
      refine ⟨by linarith, hxL, by linarith⟩

/-- Disjointness: an integer lies in the planned range of at most one
worker index. -/
lemma planRanges_disjoint {L : Int} {nt : Nat} {i j : Nat} (x : Int)
    (hxi : (planRangeAt L (blockSize L nt) i).start ≤ x ∧
      x ≤ (planRangeAt L (blockSize L nt) i).stop)
    (hxj : (planRangeAt L (blockSize L nt) j).start ≤ x ∧
      x ≤ (planRangeAt L (blockSize L nt) j).stop) : i = j := by
  set B := blockSize L nt with hB
  rw [mem_planRangeAt] at hxi hxj
  obtain ⟨hi1, hiL, hi3⟩ := hxi
  obtain ⟨hj1, hjL, hj3⟩ := hxj
  by_contra hne
  have hij : (i : Int) + 1 ≤ (j : Int) ∨ (j : Int) + 1 ≤ (i : Int) := by omega
  have hB0 : 0 ≤ B := by
    by_contra hb
    push_neg at hb
    have hi0 : (0 : Int) ≤ (i : Int) := Int.natCast_nonneg i
    nlinarith
  rcases hij with h | h
  · have : ((i : Int) + 1) * B ≤ (j : Int) * B :=
      mul_le_mul_of_nonneg_right h hB0
    linarith
  · have : ((j : Int) + 1) * B ≤ (i : Int) * B :=
      mul_le_mul_of_nonneg_right h hB0
    linarith

/-! ### Serialization and parsing: the write-then-read round trip -/

lemma digitChar_spec {d : Nat} (h : d < 10) :
    isDigitCh (digitChar d) = true ∧ digitVal (digitChar d) = d := by
  interval_cases d <;> exact ⟨by decide, by decide⟩

lemma digit_not_ws {c : Char} (h : isDigitCh c = true) : isWS c = false := by
  by_contra hw
  simp only [Bool.not_eq_false, isWS, Bool.or_eq_true, decide_eq_true_eq] at hw
  rcases hw with ((rfl | rfl) | rfl) | rfl <;> exact absurd h (by decide)

lemma renderNatAux_append : ∀ (fuel n : Nat) (acc : List Char),
    renderNatAux fuel n acc = renderNatAux fuel n [] ++ acc := by
  intro fuel
  induction fuel with
  | zero => intro n acc; simp [renderNatAux]
  | succ fuel ih =>
    intro n acc
    by_cases h : n = 0
    · simp [renderNatAux, h]
    · simp only [renderNatAux, h, if_false]
      rw [ih (n / 10) (digitChar (n % 10) :: acc), ih (n / 10) [digitChar (n % 10)]]
      simp

lemma renderNatAux_fuel : ∀ (f1 f2 n : Nat) (acc : List Char), n ≤ f1 → n ≤ f2 →
    renderNatAux f1 n acc = renderNatAux f2 n acc := by
  intro f1
  induction f1 with
  | zero =>
    intro f2 n acc h1 h2
    have h0 : n = 0 := by omega
    subst h0
    cases f2 <;> simp [renderNatAux]
  | succ f1 ih =>
    intro f2 n acc h1 h2
    by_cases h : n = 0
    · subst h
      cases f2 <;> simp [renderNatAux]
    · obtain ⟨g2, rfl⟩ : ∃ g2, f2 = g2 + 1 := ⟨f2 - 1, by omega⟩
      simp only [renderNatAux, h, if_false]
      apply ih
      · omega
      · omega

lemma renderNatAux_step {fuel n : Nat} (hn : 0 < n) (acc : List Char) :
    renderNatAux (fuel + 1) n acc
      = renderNatAux fuel (n / 10) (digitChar (n % 10) :: acc) := by
  simp only [renderNatAux]
  rw [if_neg (by omega)]

/-- One unfolding of `renderNat`, as a clean recursion on `n / 10`. -/
lemma renderNat_step {n : Nat} (h : 0 < n) :
    renderNat n =
      (if n / 10 = 0 then [] else renderNat (n / 10)) ++ [digitChar (n % 10)] := by
  have hL : renderNat n = renderNatAux (n + 1) n [] := by
    unfold renderNat
    rw [if_neg (by omega)]
  rw [hL, renderNatAux_step h, renderNatAux_append]
  by_cases h10 : n / 10 = 0
  · rw [if_pos h10, h10]
    cases n with
    | zero => omega
    | succ m => simp [renderNatAux]
  · rw [if_neg h10]
    have hR : renderNat (n / 10) = renderNatAux (n / 10 + 1) (n / 10) [] := by
      unfold renderNat
      rw [if_neg h10]
    rw [hR, renderNatAux_fuel n (n / 10 + 1) (n / 10) [] (by omega) (by omega)]

lemma renderNat_wf (n : Nat) :
    renderNat n ≠ [] ∧ (∀ c ∈ renderNat n, isDigitCh c = true) := by
  induction n using Nat.strong_induction_on with
  | _ n ih =>
    by_cases h : n = 0
    · subst h
      refine ⟨by decide, ?_⟩
      intro c hc
      simp [renderNat] at hc
      subst hc
      decide
    · rw [renderNat_step (by omega)]
      constructor
      · simp
      · intro c hc
        rw [List.mem_append] at hc
        rcases hc with hc | hc
        · by_cases h10 : n / 10 = 0
          · rw [if_pos h10] at hc; cases hc
          · rw [if_neg h10] at hc
            exact (ih (n / 10) (by omega)).2 c hc
        · rw [List.mem_singleton] at hc
          subst hc
          exact (digitChar_spec (Nat.mod_lt n (by norm_num))).1

lemma foldl_renderNat_gen (n : Nat) : ∀ a : Nat,
    (renderNat n).foldl (fun x c => x * 10 + digitVal c) a =
      a * 10 ^ (renderNat n).length + n := by
  induction n using Nat.strong_induction_on with
  | _ n ih =>
    intro a
    by_cases h : n = 0
    · subst h
      simp [renderNat, digitVal]
    · rw [renderNat_step (by omega)]
      have hd := (digitChar_spec (Nat.mod_lt n (by norm_num))).2
      by_cases h10 : n / 10 = 0
      · rw [if_pos h10]
        simp only [List.nil_append, List.foldl_cons, List.foldl_nil, List.length_singleton]
        rw [hd]
        have hn : n % 10 = n := by omega
        rw [hn, pow_one]
      · rw [if_neg h10]
        rw [List.foldl_append, List.length_append]
        simp only [List.foldl_cons, List.foldl_nil, List.length_singleton]
        rw [ih (n / 10) (by omega) a, hd]
        set P : Nat := 10 ^ (renderNat (n / 10)).length with hP
        have expand : (a * P + n / 10) * 10 + n % 10
            = a * (P * 10) + (n / 10 * 10 + n % 10) := by ring
        rw [expand, pow_succ]
        have hsum : n / 10 * 10 + n % 10 = n := by omega
        rw [hsum]

lemma readNatAux_digits : ∀ (ds rest : List Char) (a : Nat),
    (∀ c ∈ ds, isDigitCh c = true) →
    (∀ c cs, rest = c :: cs → isDigitCh c = false) →
    readNatAux (ds ++ rest) a =
      (ds.foldl (fun x c => x * 10 + digitVal c) a, rest) := by
  intro ds
  induction ds with
  | nil =>
    intro rest a _ hrest
    cases rest with
    | nil => simp [readNatAux]
    | cons c cs => simp [readNatAux, hrest c cs rfl]
  | cons c ds ih =>
    intro rest a hds hrest
    simp only [List.cons_append, readNatAux, hds c (List.mem_cons_self c ds), if_true,
      List.foldl_cons]
    exact ih rest _ (fun x hx => hds x (List.mem_cons_of_mem _ hx)) hrest

/-- Reading back a rendered natural consumes exactly its digits and
recovers its value. -/
lemma readNat_renderNat (n : Nat) (rest : List Char)
    (hrest : ∀ c cs, rest = c :: cs → isDigitCh c = false) :
    ∃ c t, renderNat n = c :: t ∧ isDigitCh c = true ∧
      readNatAux (t ++ rest) (digitVal c) = (n, rest) := by
  obtain ⟨hne, hdig⟩ := renderNat_wf n
  obtain ⟨c, t, hct⟩ : ∃ c t, renderNat n = c :: t := by
    cases h : renderNat n with
    | nil => exact absurd h hne
    | cons c t => exact ⟨c, t, rfl⟩
  refine ⟨c, t, hct, hdig c (by rw [hct]; exact List.mem_cons_self _ _), ?_⟩
  rw [readNatAux_digits t rest (digitVal c)
    (fun x hx => hdig x (by rw [hct]; exact List.mem_cons_of_mem _ hx)) hrest]
  have h2 : (renderNat n).foldl (fun x ch => x * 10 + digitVal ch) 0 = n := by
    simpa using foldl_renderNat_gen n 0
  rw [hct] at h2
  simp only [List.foldl_cons, Nat.zero_mul, Nat.zero_add] at h2
  rw [h2]

lemma readInts_cons_digit {g : Nat} {c : Char} {cs : List Char}
    (h : isDigitCh c = true) :
    readInts (g + 1) (c :: cs) =
      ((readNatAux cs (digitVal c)).1 : Int) ::
        readInts g (readNatAux cs (digitVal c)).2 := by
  have hws : isWS c = false := digit_not_ws h
  simp [readInts, List.dropWhile_cons, hws, h]

lemma readInts_cons_minus {g : Nat} {c : Char} {cs : List Char}
    (h : isDigitCh c = true) :
    readInts (g + 1) ('-' :: c :: cs) =
      (-((readNatAux cs (digitVal c)).1 : Int)) ::
        readInts g (readNatAux cs (digitVal c)).2 := by
  have h1 : isWS '-' = false := by decide
  have h2 : isDigitCh '-' = false := by decide
  simp [readInts, List.dropWhile_cons, h, h1, h2]

lemma readInts_cons_ws {f : Nat} {w : Char} {cs : List Char} (h : isWS w = true) :
    readInts f (w :: cs) = readInts f cs := by
  cases f with
  | zero => rfl
  | succ f => simp only [readInts, List.dropWhile_cons, h, if_true]

lemma readInts_newline (f : Nat) : readInts f ['\n'] = [] := by
  cases f with
  | zero => rfl
  | succ f =>
    have h1 : isWS '\n' = true := by decide
    simp [readInts, List.dropWhile_cons, h1]

lemma renderInt_ne_nil (x : Int) : renderInt x ≠ [] := by
  unfold renderInt
  split_ifs with h
  · simp
  · exact (renderNat_wf x.toNat).1

lemma serializeBody_length : ∀ xs : List Int, xs.length ≤ (serializeBody xs).length := by
  intro xs
  induction xs with
  | nil => simp [serializeBody]
  | cons x xs ih =>
    cases xs with
    | nil =>
      have h1 : renderInt x ≠ [] := renderInt_ne_nil x
      have : 1 ≤ (renderInt x).length := by
        cases h : renderInt x with
        | nil => exact absurd h h1
        | cons c t => simp
      simpa [serializeBody]
    | cons y t =>
      simp only [serializeBody, List.length_append, List.length_cons] at ih ⊢
      omega

/-- The accumulated-form round trip: with enough fuel, the merge loop's
reader recovers exactly the serialized sequence. -/
lemma readInts_serializeBody : ∀ (xs : List Int) (fuel : Nat), xs.length < fuel →
    readInts fuel (serializeBody xs ++ ['\n']) = xs := by
  intro xs
  induction xs with
  | nil =>
    intro fuel hf
    simpa [serializeBody] using readInts_newline fuel
  | cons x xs ih =>
    intro fuel hf
    obtain ⟨g, rfl⟩ : ∃ g, fuel = g + 1 := ⟨fuel - 1, by omega⟩
    -- split the serialized form into the first token and the rest
    obtain ⟨rest, hsplit, hrest, hrtail⟩ :
        ∃ rest, serializeBody (x :: xs) ++ ['\n'] = renderInt x ++ rest ∧
          (∀ c cs, rest = c :: cs → isDigitCh c = false) ∧
          readInts g rest = xs := by
      cases xs with
      | nil =>
        refine ⟨['\n'], by simp [serializeBody], ?_, readInts_newline g⟩
        rintro c cs ⟨rfl, rfl⟩
        decide
      | cons y t =>
        refine ⟨' ' :: (serializeBody (y :: t) ++ ['\n']), ?_, ?_, ?_⟩
        · simp [serializeBody]
        · rintro c cs ⟨rfl, rfl⟩
          decide
        · rw [readInts_cons_ws (by decide)]
          exact ih g (by simpa using hf)
    rw [hsplit]
    by_cases hx : x < 0
    · obtain ⟨c, t, hct, hc, hread⟩ := readNat_renderNat (-x).toNat rest hrest
      have hri : renderInt x = '-' :: renderNat (-x).toNat := by
        simp [renderInt, hx]
      rw [hri, hct, List.cons_append, List.cons_append, readInts_cons_minus hc, hread]
      simp only [hrtail]
      congr 1
      omega
    · obtain ⟨c, t, hct, hc, hread⟩ := readNat_renderNat x.toNat rest hrest
      have hri : renderInt x = renderNat x.toNat := by
        simp [renderInt, hx]
      rw [hri, hct, List.cons_append, readInts_cons_digit hc, hread]
      simp only [hrtail]
      congr 1
      omega

/-- Write-then-read is the identity on integer sequences. -/
lemma parseInts_serializeChars (xs : List Int) :
    parseInts (serializeChars xs) = xs := by
  unfold parseInts serializeChars
  apply readInts_serializeBody
  have := serializeBody_length xs
  simp only [List.length_append, List.length_singleton]
  omega

/-! ### Merge with fallback, sort, dedup -/

/-- When every readable artifact holds what its worker serialized, the
merge accumulates exactly the concatenation of the per-worker lists —
no matter which subset of artifacts is readable. -/
lemma mergeAccum_artifactsOf : ∀ (ls : List (List Int)) (ok : Nat → Bool) (i : Nat),
    mergeAccum (artifactsOf ls ok i) ls = ls.flatten := by
  intro ls
  induction ls with
  | nil => intro ok i; simp [artifactsOf, mergeAccum]
  | cons l ls ih =>
    intro ok i
    by_cases h : ok i
    · simp [artifactsOf, h, mergeAccum, parseInts_serializeChars, ih]
    · simp [artifactsOf, h, mergeAccum, ih]

lemma mem_dedupRun : ∀ (l : List Int) (x a : Int), a ∈ dedupRun x l ↔ a = x ∨ a ∈ l := by
  intro l
  induction l with
  | nil => intro x a; simp [dedupRun]
  | cons y ys ih =>
    intro x a
    by_cases h : x = y
    · subst h
      have he : dedupRun x (x :: ys) = dedupRun x ys := by simp [dedupRun]
      rw [he, ih]
      simp only [List.mem_cons]
      tauto
    · have he : dedupRun x (y :: ys) = x :: dedupRun y ys := by simp [dedupRun, h]
      rw [he]
      simp only [List.mem_cons]
      rw [ih]

lemma sorted_dedupRun : ∀ (l : List Int) (x : Int), (x :: l).Sorted (· ≤ ·) →
    (dedupRun x l).Sorted (· < ·) := by
  intro l
  induction l with
  | nil => intro x _; simp [dedupRun]
  | cons y ys ih =>
    intro x hs
    rw [List.sorted_cons] at hs
    obtain ⟨hx, hys⟩ := hs
    by_cases h : x = y
    · subst h
      have he : dedupRun x (x :: ys) = dedupRun x ys := by simp [dedupRun]
      rw [he]
      apply ih
      rw [List.sorted_cons] at hys ⊢
      exact ⟨fun b hb => hx b (List.mem_cons_of_mem _ hb), hys.2⟩
    · have he : dedupRun x (y :: ys) = x :: dedupRun y ys := by simp [dedupRun, h]
      rw [he]
      rw [List.sorted_cons]
      have hxy : x < y := lt_of_le_of_ne (hx y (List.mem_cons_self _ _)) h
      constructor
      · intro b hb
        rw [mem_dedupRun] at hb
        rcases hb with rfl | hb
        · exact hxy
        · exact lt_of_lt_of_le hxy ((List.sorted_cons.mp hys).1 b hb)
      · exact ih y hys

lemma mem_dedupConsec {l : List Int} {a : Int} : a ∈ dedupConsec l ↔ a ∈ l := by
  cases l with
  | nil => simp [dedupConsec]
  | cons x xs => simp [dedupConsec, mem_dedupRun]

lemma sorted_dedupConsec {l : List Int} (h : l.Sorted (· ≤ ·)) :
    (dedupConsec l).Sorted (· < ·) := by
  cases l with
  | nil => simp [dedupConsec]
  | cons x xs => exact sorted_dedupRun xs x h

lemma sorted_finalize (l : List Int) : (finalize l).Sorted (· < ·) :=
  sorted_dedupConsec (List.sorted_insertionSort _ l)

lemma mem_finalize {l : List Int} {a : Int} : a ∈ finalize l ↔ a ∈ l := by
  unfold finalize
  rw [mem_dedupConsec]
  exact (List.perm_insertionSort _ l).mem_iff

/-- Two strictly sorted lists with the same members are equal. -/
lemma sorted_lt_ext : ∀ (l1 l2 : List Int), l1.Sorted (· < ·) → l2.Sorted (· < ·) →
    (∀ x, x ∈ l1 ↔ x ∈ l2) → l1 = l2 := by
  intro l1
  induction l1 with
  | nil =>
    intro l2 _ _ hm
    cases l2 with
    | nil => rfl
    | cons b t2 => exact absurd ((hm b).mpr (List.mem_cons_self _ _)) (by simp)
  | cons a t1 ih =>
    intro l2 h1 h2 hm
    cases l2 with
    | nil => exact absurd ((hm a).mp (List.mem_cons_self _ _)) (by simp)
    | cons b t2 =>
      rw [List.sorted_cons] at h1 h2
      obtain ⟨ha, h1'⟩ := h1
      obtain ⟨hb, h2'⟩ := h2
      have hab : a = b := by
        have h3 := (hm a).mp (List.mem_cons_self _ _)
        have h4 := (hm b).mpr (List.mem_cons_self _ _)
        rw [List.mem_cons] at h3 h4
        rcases h3 with h3 | h3
        · exact h3
        · rcases h4 with h4 | h4
          · exact h4.symm
          · have hba := ha b h4
            have hab' := hb a h3
            omega
      subst hab
      congr 1
      apply ih t2 h1' h2'
      intro x
      constructor
      · intro hx
        have hmx := (hm x).mp (List.mem_cons_of_mem _ hx)
        rw [List.mem_cons] at hmx
        rcases hmx with rfl | h'
        · exact absurd (ha x hx) (lt_irrefl x)
        · exact h'
      · intro hx
        have hmx := (hm x).mpr (List.mem_cons_of_mem _ hx)
        rw [List.mem_cons] at hmx
        rcases hmx with rfl | h'
        · exact absurd (hb x hx) (lt_irrefl x)
        · exact h'

/-! ### The reference list of primes and the end-to-end result -/

lemma mem_specPrimesAscending {L x : Int} (hL : 0 ≤ L) :
    x ∈ specPrimesAscending L ↔ 2 ≤ x ∧ x ≤ L ∧ Nat.Prime x.toNat := by
  simp only [specPrimesAscending, List.mem_map, List.mem_filter, List.mem_range,
    decide_eq_true_eq]
  constructor
  · rintro ⟨n, ⟨hn, hp⟩, rfl⟩
    have h2 := hp.two_le
    refine ⟨by omega, by omega, by simpa⟩
  · rintro ⟨h2, hxL, hp⟩
    exact ⟨x.toNat, ⟨by omega, hp⟩, by omega⟩

lemma sorted_specPrimesAscending (L : Int) :
    (specPrimesAscending L).Sorted (· < ·) := by
  unfold specPrimesAscending List.Sorted
  rw [List.pairwise_map]
  have h1 : (List.range (L.toNat + 1)).Pairwise (fun a b : Nat => (a : Int) < (b : Int)) :=
    List.Pairwise.imp (fun hab => by exact_mod_cast hab) (List.sorted_lt_range _)
  exact List.Pairwise.sublist (List.filter_sublist _) h1

lemma mem_join_workerLists {L : Int} {nt : Nat} (hL : 0 ≤ L) (hnt : 1 ≤ nt) (x : Int) :
    x ∈ (workerListsOf L nt).flatten ↔ 1 ≤ x ∧ x ≤ L ∧ isPrime x = true := by
  rw [List.mem_flatten]
  constructor
  · rintro ⟨l, hl, hx⟩
    rw [workerListsOf, List.mem_map] at hl
    obtain ⟨r, hr, rfl⟩ := hl
    rw [planRanges, List.mem_map] at hr
    obtain ⟨i, hi, rfl⟩ := hr
    rw [List.mem_range] at hi
    rw [mem_workerPrimes] at hx
    have hc := (planRanges_cover hL hnt x).mp ⟨i, hi, hx.1, hx.2.1⟩
    exact ⟨hc.1, hc.2, hx.2.2⟩
  · rintro ⟨h1, h2, hp⟩
    obtain ⟨i, hi, hxi⟩ := (planRanges_cover hL hnt x).mpr ⟨h1, h2⟩
    refine ⟨workerPrimes (planRangeAt L (blockSize L nt) i), ?_, ?_⟩
    · rw [workerListsOf, List.mem_map]
      refine ⟨planRangeAt L (blockSize L nt) i, ?_, rfl⟩
      rw [planRanges, List.mem_map]
      exact ⟨i, List.mem_range.mpr hi, rfl⟩
    · exact mem_workerPrimes.mpr ⟨hxi.1, hxi.2, hp⟩

/-- End-to-end: whatever subset of artifacts is readable, the run
produces exactly the ascending list of primes in `[2, L]`. -/
lemma finalSequenceRun_eq_spec {L : Int} {nt : Nat} (hL : 0 ≤ L) (hnt : 1 ≤ nt)
    (ok : Nat → Bool) : finalSequenceRun L nt ok = specPrimesAscending L := by
  unfold finalSequenceRun
  rw [mergeAccum_artifactsOf]
  apply sorted_lt_ext _ _ (sorted_finalize _) (sorted_specPrimesAscending L)
  intro x
  rw [mem_finalize, mem_join_workerLists hL hnt, mem_specPrimesAscending hL]
  constructor
  · rintro ⟨h1, h2, hp⟩
    have hip := (isPrime_iff_prime x).mp hp
    exact ⟨hip.1, h2, hip.2⟩
  · rintro ⟨h2, hxL, hp⟩
    exact ⟨by omega, hxL, (isPrime_iff_prime x).mpr ⟨h2, hp⟩⟩

/-! ### Thread-count policy and limit parsing -/

lemma computeNumThreads_pos (hw0 : Nat) (limit : Int) :
    1 ≤ computeNumThreads hw0 limit := by
  have hdef : computeNumThreads hw0 limit =
      if limit < 2 then 1
      else (min (((if hw0 = 0 then 2 else hw0 : Nat)) : Int) (max 1 limit)).toNat := rfl
  rw [hdef]
  by_cases h : limit < 2
  · simp [h]
  · rw [if_neg h]
    have h1 : (1 : Int) ≤ (((if hw0 = 0 then 2 else hw0 : Nat)) : Int) := by
      split_ifs with h0
      · norm_num
      · exact_mod_cast Nat.one_le_iff_ne_zero.mpr h0
    have h3 := le_min h1 (le_max_left (1 : Int) limit)
    set m := min (((if hw0 = 0 then 2 else hw0 : Nat)) : Int) (max 1 limit) with hm
    omega

lemma parseLimit_eq_some_iff {s : List Char} {v : Int} :
    parseLimit s = some v ↔
      s ≠ [] ∧ s.all isDigitCh = true ∧ v = (charsVal s : Int) ∧
        (charsVal s : Int) ≤ LLONG_MAX := by
  unfold parseLimit
  split_ifs with h1 h2 h3
  · simp [h1]
  · constructor
    · intro h
      injection h with h
      exact ⟨h1, h2, h.symm, h3⟩
    · rintro ⟨-, -, rfl, -⟩
      rfl
  · constructor
    · intro h; cases h
    · rintro ⟨-, -, -, h⟩
      exact absurd h h3
  · constructor
    · intro h; cases h
    · rintro ⟨-, h, -, -⟩
      exact absurd h h2

lemma mainRun_none_iff {arg : List Char} {hw0 : Nat} {ok : Nat → Bool} :
    mainRun arg hw0 ok = none ↔ parseLimit arg = none := by
  unfold mainRun
  cases h : parseLimit arg <;> simp

lemma planRanges_getD {L : Int} {nt i : Nat} (h : i < nt) :
    (planRanges L nt).getD i ⟨1, 0⟩ = planRangeAt L (blockSize L nt) i := by
  simp [planRanges, List.getD_eq_getElem?_getD, List.getElem?_map, List.getElem?_range, h]

/-! ### The claims -/

/-- C1: for every limit `L ≥ 0` and every worker count `≥ 1`, the final
merged output (accumulate per-worker sources in index order, sort
ascending, remove consecutive duplicates) equals the exact ascending
list of all primes in `[2, L]`; in particular the result does not depend
on the worker count used to partition the work. -/
theorem claim_C1 (L : Int) (nt : Nat) (hL : 0 ≤ L) (hnt : 1 ≤ nt) :
    finalSequenceRun L nt (fun _ => true) = specPrimesAscending L ∧
    (∀ nt' : Nat, 1 ≤ nt' →
      finalSequenceRun L nt (fun _ => true) = finalSequenceRun L nt' (fun _ => true)) := by
  refine ⟨finalSequenceRun_eq_spec hL hnt _, fun nt' hnt' => ?_⟩
  rw [finalSequenceRun_eq_spec hL hnt, finalSequenceRun_eq_spec hL hnt']

theorem claim_C1_witness :
    (0 : Int) ≤ 10 ∧ (1 : Nat) ≤ 3 ∧
      finalSequenceRun 10 3 (fun _ => true) = specPrimesAscending 10 ∧
      specPrimesAscending 10 = [2, 3, 5, 7] :=
  ⟨by decide, by decide, (claim_C1 10 3 (by decide) (by decide)).1, by decide⟩

/-- C2: `isPrime` returns false below 2, true at 2, false at even
numbers other than 2, otherwise false exactly when some odd divisor `d`
with `d * d ≤ n` divides `n`; equivalently it decides primality over the
whole working integer type. -/
theorem claim_C2 (n : Int) :
    (n < 2 → isPrime n = false) ∧
    isPrime 2 = true ∧
    (n % 2 = 0 → n ≠ 2 → isPrime n = false) ∧
    (2 < n → n % 2 = 1 →
      (isPrime n = false ↔ ∃ d : Int, 3 ≤ d ∧ d % 2 = 1 ∧ d * d ≤ n ∧ n % d = 0)) ∧
    (isPrime n = true ↔ 2 ≤ n ∧ Nat.Prime n.toNat) := by
  refine ⟨?_, by decide, ?_, ?_, isPrime_iff_prime n⟩
  · intro h
    simp [isPrime, h]
  · intro he hne
    by_cases hlt : n < 2
    · simp [isPrime, hlt]
    · simp [isPrime, hlt, hne, he]
  · intro h2 ho
    exact isPrime_eq_false_iff_oddDvd (by omega) ho

theorem claim_C2_witness : isPrime 97 = true :=
  (claim_C2 97).2.2.2.2.mpr ⟨by decide, by decide⟩

/-- C3: with `block = ceil(limit / workerCount)` the planner yields one
range per worker index, `start = i*block + 1`,
`end = min(limit, (i+1)*block)`, inverted pairs replaced by the empty
range `{1, 0}`; the non-empty ranges are pairwise disjoint and cover
`[1, limit]` exactly. -/
theorem claim_C3 (L : Int) (nt : Nat) (hL : 0 ≤ L) (hnt : 1 ≤ nt) :
    (planRanges L nt).length = nt ∧
    (∀ i : Nat, i < nt →
      (planRanges L nt).getD i ⟨1, 0⟩ =
        if min L (((i : Int) + 1) * ceil_div L (nt : Int)) <
            (i : Int) * ceil_div L (nt : Int) + 1
        then ⟨1, 0⟩
        else ⟨(i : Int) * ceil_div L (nt : Int) + 1,
          min L (((i : Int) + 1) * ceil_div L (nt : Int))⟩) ∧
    (∀ x : Int, (1 ≤ x ∧ x ≤ L) ↔
      ∃ i : Nat, i < nt ∧ ((planRanges L nt).getD i ⟨1, 0⟩).start ≤ x ∧
        x ≤ ((planRanges L nt).getD i ⟨1, 0⟩).stop) ∧
    (∀ (x : Int) (i j : Nat), i < nt → j < nt →
      ((planRanges L nt).getD i ⟨1, 0⟩).start ≤ x →
      x ≤ ((planRanges L nt).getD i ⟨1, 0⟩).stop →
      ((planRanges L nt).getD j ⟨1, 0⟩).start ≤ x →
      x ≤ ((planRanges L nt).getD j ⟨1, 0⟩).stop →
      i = j) := by
  have hbs : blockSize L nt = ceil_div L (nt : Int) := by
    unfold blockSize
    rw [if_pos (show 0 < nt by omega)]
  refine ⟨planRanges_length L nt, ?_, ?_, ?_⟩
  · intro i hi
    rw [planRanges_getD hi, ← hbs]
    rfl
  · intro x
    constructor
    · intro hx
      obtain ⟨i, hi, h1, h2⟩ := (planRanges_cover hL hnt x).mpr hx
      refine ⟨i, hi, ?_, ?_⟩
      · rw [planRanges_getD hi]; exact h1
      · rw [planRanges_getD hi]; exact h2
    · rintro ⟨i, hi, h1, h2⟩
      rw [planRanges_getD hi] at h1 h2
      exact (planRanges_cover hL hnt x).mp ⟨i, hi, h1, h2⟩
  · intro x i j hi hj hi1 hi2 hj1 hj2
    rw [planRanges_getD hi] at hi1 hi2
    rw [planRanges_getD hj] at hj1 hj2
    exact planRanges_disjoint x ⟨hi1, hi2⟩ ⟨hj1, hj2⟩

theorem claim_C3_witness :
    (0 : Int) ≤ 7 ∧ (1 : Nat) ≤ 3 ∧ (planRanges 7 3).length = 3 :=
  ⟨by decide, by decide, (claim_C3 7 3 (by decide) (by decide)).1⟩

/-- C4: a worker's in-memory result is the ascending list of the primes
in its inclusive range, and an empty range yields an empty list. -/
theorem claim_C4 (r : Range) :
    (workerPrimes r).Sorted (· < ·) ∧
    (∀ x : Int, x ∈ workerPrimes r ↔ r.start ≤ x ∧ x ≤ r.stop ∧ isPrime x = true) ∧
    (r.stop < r.start → workerPrimes r = []) :=
  ⟨sorted_workerPrimes r, fun _ => mem_workerPrimes, workerPrimes_of_empty⟩

theorem claim_C4_witness : workerPrimes ⟨1, 0⟩ = [] :=
  (claim_C4 ⟨1, 0⟩).2.2 (by decide)

/-- C5 counterexample: the claim counts a corrupt artifact as a failed
read that falls back to the worker's in-memory list.  The merge loop,
however, falls back only when the artifact cannot be opened; an artifact
that opens but holds garbage (here the single character `x`) is parsed
as far as possible and treated as authoritative, so the final sequence
differs from the all-artifacts-intact run. -/
theorem claim_C5_counterexample :
    finalize (mergeAccum [some ['x']] (workerListsOf 2 1)) ≠
      finalSequenceRun 2 1 (fun _ => true) := by decide

/-- C5 (amended): for every worker index whose artifact cannot be opened
the coordinator substitutes that worker's in-memory fallback, the merge
of the other workers is unaffected, and for any subset of missing
artifacts the final sequence is unchanged from the all-readable run.  An
artifact that opens but is corrupt is instead parsed as far as possible
and used as-is. -/
theorem claim_C5_amended :
    (∀ (arts : List (Option (List Char))) (fb : List Int) (fbs : List (List Int)),
      mergeAccum (none :: arts) (fb :: fbs) = fb ++ mergeAccum arts fbs) ∧
    (∀ (L : Int) (nt : Nat) (ok : Nat → Bool),
      finalSequenceRun L nt ok = finalSequenceRun L nt (fun _ => true)) := by
  refine ⟨fun arts fb fbs => rfl, fun L nt ok => ?_⟩
  unfold finalSequenceRun
  rw [mergeAccum_artifactsOf, mergeAccum_artifactsOf]

/-- C6: a readable artifact is authoritative: its parsed contents are
appended and the in-memory fallback for that index is never consulted,
whatever it contains. -/
theorem claim_C6 :
    (∀ (c : List Char) (arts : List (Option (List Char))) (fb : List Int)
        (fbs : List (List Int)),
      mergeAccum (some c :: arts) (fb :: fbs) = parseInts c ++ mergeAccum arts fbs) ∧
    (∀ (arts : List (Option (List Char))) (fbs : List (List Int)) (i : Nat)
        (c : List Char) (fb' : List Int),
      arts[i]? = some (some c) →
      mergeAccum arts fbs = mergeAccum arts (fbs.set i fb')) := by
  constructor
  · intro c arts fb fbs
    rfl
  · intro arts
    induction arts with
    | nil =>
      intro fbs i c fb' h
      simp at h
    | cons a arts ih =>
      intro fbs i c fb' h
      cases fbs with
      | nil =>
        cases a <;> rfl
      | cons fb fbs =>
        cases i with
        | zero =>
          simp at h
          subst h
          rfl
        | succ i =>
          simp at h
          cases a with
          | none => simp [mergeAccum, List.set, ih fbs i c fb' h]
          | some c2 => simp [mergeAccum, List.set, ih fbs i c fb' h]

theorem claim_C6_witness :
    mergeAccum [some ['7']] [[2]] = mergeAccum [some ['7']] ([[2]].set 0 [99]) :=
  claim_C6.2 [some ['7']] [[2]] 0 ['7'] [99] (by decide)

/-- C7: the worker serializes its sequence as space-separated decimal
integers terminated by a single newline (an empty sequence gives just a
newline), and the merge loop's whitespace-based parse of that artifact
returns exactly the original sequence. -/
theorem claim_C7 :
    serializeChars [] = ['\n'] ∧
    (∀ xs : List Int, parseInts (serializeChars xs) = xs) :=
  ⟨rfl, parseInts_serializeChars⟩

/-- C8: the final sequence (sort then remove consecutive duplicates) is
strictly ascending at every adjacent pair, for arbitrary accumulator
contents. -/
theorem claim_C8 (l : List Int) (i : Nat) (h : i + 1 < (finalize l).length) :
    (finalize l).get ⟨i, by omega⟩ < (finalize l).get ⟨i + 1, h⟩ := by
  have hs : (finalize l).Sorted (· < ·) := sorted_finalize l
  rw [List.Sorted] at hs
  exact List.pairwise_iff_get.mp hs ⟨i, by omega⟩ ⟨i + 1, h⟩ (by simp)

theorem claim_C8_witness :
    (finalize [3, 2, 2, 5]).get ⟨0, by decide⟩ <
      (finalize [3, 2, 2, 5]).get ⟨1, by decide⟩ :=
  claim_C8 [3, 2, 2, 5] 0 (by decide)

/-- C9: the limit parser accepts a string exactly when it is non-empty,
all decimal digits, and its value fits `long long`; on a rejected input
the program stops before the core pipeline, and on an accepted one the
pipeline runs on the parsed value. -/
theorem claim_C9 (s : List Char) (hw0 : Nat) (ok : Nat → Bool) :
    (∀ v : Int, parseLimit s = some v ↔
      s ≠ [] ∧ s.all isDigitCh = true ∧ v = (charsVal s : Int) ∧
        (charsVal s : Int) ≤ LLONG_MAX) ∧
    (parseLimit s = none → mainRun s hw0 ok = none) ∧
    (∀ v : Int, parseLimit s = some v →
      mainRun s hw0 ok = some (finalSequenceRun v (computeNumThreads hw0 v) ok)) := by
  refine ⟨fun v => parseLimit_eq_some_iff, ?_, ?_⟩
  · intro h
    exact mainRun_none_iff.mpr h
  · intro v h
    unfold mainRun
    rw [h]

theorem claim_C9_witness : mainRun ['a'] 4 (fun _ => true) = none :=
  (claim_C9 ['a'] 4 (fun _ => true)).2.1 (by decide)

/-- C10: for every reported hardware concurrency (0 included) and every
limit, the computed worker count is at least 1, so the block-size guard
takes its division branch and the per-worker vectors are non-empty. -/
theorem claim_C10 (hw0 : Nat) (L : Int) :
    1 ≤ computeNumThreads hw0 L ∧
    blockSize L (computeNumThreads hw0 L) =
      ceil_div L ((computeNumThreads hw0 L : Nat) : Int) ∧
    planRanges L (computeNumThreads hw0 L) ≠ [] ∧
    tempFileNames (computeNumThreads hw0 L) ≠ [] ∧
    localsInit (computeNumThreads hw0 L) ≠ [] := by
  have h1 := computeNumThreads_pos hw0 L
  refine ⟨h1, ?_, ?_, ?_, ?_⟩
  · unfold blockSize
    rw [if_pos (show 0 < computeNumThreads hw0 L by omega)]
  · intro h
    have hlen := planRanges_length L (computeNumThreads hw0 L)
    rw [h] at hlen
    simp at hlen
    omega
  · intro h
    have hlen : (tempFileNames (computeNumThreads hw0 L)).length
        = computeNumThreads hw0 L := by simp [tempFileNames]
    rw [h] at hlen
    simp at hlen
    omega
  · intro h
    have hlen : (localsInit (computeNumThreads hw0 L)).length
        = computeNumThreads hw0 L := by simp [localsInit]
    rw [h] at hlen
    simp at hlen
    omega

